import Mathlib

/-
Verification of the ORF strength regression engine (regress_ORFs.py).

The development shallowly embeds the numeric core of the program:
the metagene window configuration, the expected-profile generator
ORF_profile, the per-candidate design-matrix column construction,
and the per-family regression pipeline of regress_tfam (zero-support
pruning, sub-threshold pruning, covariance computation and per-group
aggregation), over exact rationals. External numeric collaborators
(scipy nnls) are passed in as explicit function parameters; numpy
linear-algebra inversion is modelled as an Except value that fails
exactly on a singular matrix, mirroring LinAlgError.
-/

open Matrix

namespace ORFRegress

/-- Metagene window configuration. Mirrors the tuples startnt and stopnt in
regress_ORFs.py plus the number of read-length bins (len(rdlens)). -/
structure MetaConfig where
  startnt0 : ℤ
  startnt1 : ℤ
  stopnt0 : ℤ
  stopnt1 : ℤ
  bins : ℕ

/-- Constraints actually enforced on the configuration by the program:
startnt = (-abs(startrange[0])*3, abs(startrange[1])*3) and
stopnt = (-abs(stoprange[0])*3, abs(stoprange[1])*3), so the bounds are
multiples of 3 with the stated signs; and the stop-window check raises
ValueError unless stopnt[0] < -6. -/
def MetaConfig.valid (cfg : MetaConfig) : Prop :=
  cfg.startnt0 ≤ 0 ∧ 0 ≤ cfg.startnt1 ∧ cfg.stopnt0 ≤ 0 ∧ 0 ≤ cfg.stopnt1 ∧
  3 ∣ cfg.startnt0 ∧ 3 ∣ cfg.startnt1 ∧ 3 ∣ cfg.stopnt0 ∧ 3 ∣ cfg.stopnt1 ∧
  cfg.stopnt0 < -6

instance (cfg : MetaConfig) : Decidable cfg.valid := by
  unfold MetaConfig.valid; infer_instance

/-- A 2-D numpy array of rationals: explicit shape plus an entry function.
Only entries with row < rows and col < cols are meaningful. -/
structure NPArray where
  rows : ℕ
  cols : ℕ
  entry : ℕ → ℕ → ℚ

/-- Python slice-endpoint normalization for an axis of length n: a negative
index counts from the end, and the result is clamped into [0, n]. -/
def pyIdx (n : ℕ) (i : ℤ) : ℕ :=
  (min (max (if i < 0 then (n : ℤ) + i else i) 0) (n : ℤ)).toNat

/-- a[:, i:] in numpy. -/
def NPArray.colsFrom (A : NPArray) (i : ℤ) : NPArray :=
  ⟨A.rows, A.cols - pyIdx A.cols i, fun r c => A.entry r (c + pyIdx A.cols i)⟩

/-- a[:, :i] in numpy. -/
def NPArray.colsTo (A : NPArray) (i : ℤ) : NPArray :=
  ⟨A.rows, pyIdx A.cols i, A.entry⟩

/-- a[:, i:j] in numpy. -/
def NPArray.colsSlice (A : NPArray) (i j : ℤ) : NPArray :=
  ⟨A.rows, pyIdx A.cols j - pyIdx A.cols i, fun r c => A.entry r (c + pyIdx A.cols i)⟩

/-- np.hstack((A, B)) for arrays with the same number of rows. -/
def NPArray.hstack2 (A B : NPArray) : NPArray :=
  ⟨A.rows, A.cols + B.cols,
   fun r c => if c < A.cols then A.entry r c else B.entry r (c - A.cols)⟩

/-- np.tile(A, n): horizontal tiling n times. -/
def NPArray.tile (A : NPArray) (n : ℕ) : NPArray :=
  ⟨A.rows, A.cols * n, fun r c => A.entry r (c % A.cols)⟩

/-- a.ravel(): row-major flattening into a list. -/
def NPArray.ravel (A : NPArray) : List ℚ :=
  (List.range (A.rows * A.cols)).map (fun k => A.entry (k / A.cols) (k % A.cols))

/-- The short-ORF cutoff, a constant 9 nucleotides in ORF_profile. -/
def shortStop : ℤ := 9

/-- ORF_profile(orflen) from regress_ORFs.py, lines 115-138, parameterized by
the three metagene template arrays. The four branches follow the source
exactly, with Python negative-index slicing made explicit through pyIdx. -/
def ORF_profile (cfg : MetaConfig) (startprof cdsprof stopprof : NPArray)
    (orflen : ℤ) : NPArray :=
  if cfg.startnt1 - cfg.stopnt0 ≤ orflen then
    (startprof.hstack2
      (cdsprof.tile ((orflen - cfg.startnt1 + cfg.stopnt0) / 3).toNat)).hstack2 stopprof
  else if cfg.startnt1 + shortStop ≤ orflen then
    startprof.hstack2 (stopprof.colsFrom (cfg.startnt1 - orflen - cfg.stopnt1))
  else if shortStop ≤ orflen then
    (startprof.colsTo (orflen - shortStop - cfg.startnt0)).hstack2
      (stopprof.colsFrom (-shortStop - cfg.stopnt1))
  else
    (startprof.colsTo (3 - cfg.startnt0)).hstack2
      (stopprof.colsFrom (3 - orflen - cfg.stopnt0))

/-- An all-zero template array of a given shape, used for concrete instances
where only shapes and indices matter. -/
def zeroProf (r c : ℕ) : NPArray := ⟨r, c, fun _ _ => 0⟩

/-! ## Design-matrix column construction (regress_tfam, lines 202-225) -/

/-- A candidate ORF as seen by the column builder: the list tid_indices[tid]
of family-grid indices of its transcript (ascending, 5-prime to 3-prime on
the family strand), and the transcript-local start and stop coordinates. -/
structure Cand where
  tidIdx : List ℕ
  tcoord : ℤ
  tstop : ℤ
  deriving DecidableEq

/-- Python list slicing l[a:b]. -/
def pySlice {α : Type} (l : List α) (a b : ℤ) : List α :=
  (l.take (pyIdx l.length b)).drop (pyIdx l.length a)

/-- Number of nucleotides trimmed from the 5-prime end for a short 5-prime
UTR (the startadj variable). -/
def startadj (cfg : MetaConfig) (tcoord : ℤ) : ℤ :=
  if tcoord + cfg.startnt0 < 0 then -cfg.startnt0 - tcoord else 0

/-- Number of nucleotides trimmed from the 3-prime end for a short 3-prime
UTR (the stopadj variable). -/
def stopadj (cfg : MetaConfig) (tstop tlen : ℤ) : ℤ :=
  if tlen < tstop + cfg.stopnt1 then tstop + cfg.stopnt1 - tlen else 0

/-- np.concatenate([nnt*i + curr_indices for i in xrange(len(rdlens))]):
the grid indices replicated once per read-length bin. -/
def tileIndices (bins nnt : ℕ) (idx : List ℕ) : List ℕ :=
  (List.range bins).flatMap (fun i => idx.map (fun j => nnt * i + j))

/-- The sparse column built for one candidate: its row indices and the
matching expected-profile values. Non-histop candidates (tcoord different
from tstop) use the UTR-trimmed slice of ORF_profile; histop candidates use
the final 6 columns of the stop template over the 6 nt before the stop. -/
def candColumn (cfg : MetaConfig) (startprof cdsprof stopprof : NPArray)
    (nnt bins : ℕ) (c : Cand) : List ℕ × List ℚ :=
  if c.tcoord ≠ c.tstop then
    (tileIndices bins nnt
       (pySlice c.tidIdx (c.tcoord + cfg.startnt0 + startadj cfg c.tcoord)
         (c.tstop + cfg.stopnt1 - stopadj cfg c.tstop (c.tidIdx.length : ℤ))),
     ((ORF_profile cfg startprof cdsprof stopprof (c.tstop - c.tcoord)).colsSlice
        (startadj cfg c.tcoord)
        (c.tstop - c.tcoord + cfg.stopnt1 - cfg.startnt0 -
          stopadj cfg c.tstop (c.tidIdx.length : ℤ))).ravel)
  else
    (tileIndices bins nnt (pySlice c.tidIdx (c.tstop - 6) c.tstop),
     (stopprof.colsFrom (-6)).ravel)

/-- The family-grid index of the genomic coordinate of the first nucleotide
of the start codon of a candidate. Since the family grid is the sorted
position union (reversed on the minus strand), grid indices are in
order-preserving bijection with genomic coordinates, so two candidates have
equal genomic start coordinates exactly when these indices are equal. -/
def Cand.gcoordIdx (c : Cand) : Option ℕ := c.tidIdx.get? c.tcoord.toNat

/-- The family-grid index of the genomic coordinate of the last nucleotide
of the stop codon of a candidate (transcript position tstop - 1). -/
def Cand.gstopIdx (c : Cand) : Option ℕ := c.tidIdx.get? (c.tstop - 1).toNat

/-- The assembly loop of regress_tfam, lines 202-221: build the column of
each candidate in order, and raise AssertionError at the first candidate
whose tiled index count differs from its profile length. The csc matrix is
assembled (line 222) only from an ok result. -/
def buildColumns (cfg : MetaConfig) (startprof cdsprof stopprof : NPArray)
    (nnt bins : ℕ) : List Cand → Except String (List (List ℕ × List ℚ))
  | [] => .ok []
  | c :: rest =>
    let col := candColumn cfg startprof cdsprof stopprof nnt bins c
    if col.1.length ≠ col.2.length then
      .error "ORF length does not match index length"
    else
      match buildColumns cfg startprof cdsprof stopprof nnt bins rest with
      | .error e => .error e
      | .ok cols => .ok (col :: cols)

/-! ## The per-family regression pipeline (regress_tfam, lines 227-296) -/

/-- One row of ORF_strength_df: the candidate fields used by the pipeline.
ORF_name distinguishes real candidates from the synthetic abortive and
histop rows; abortive rows carry gstop = gcoord and histop rows carry
gcoord = gstop and tcoord = tstop, exactly as in the source. -/
structure CandRow where
  name : String
  tcoord : ℤ
  tstop : ℤ
  gcoord : ℤ
  gstop : ℤ
  deriving DecidableEq

/-- Dot product of two equal-length rational vectors (lists). -/
def dot (v w : List ℚ) : ℚ := (List.zipWith (· * ·) v w).sum

/-- Delete column j from every row of a list-of-rows matrix. -/
def dropCol (j : ℕ) (M : List (List ℚ)) : List (List ℚ) :=
  M.map (fun r => r.take j ++ r.drop (j + 1))

/-- Determinant by Laplace expansion along the first row, with an explicit
fuel argument so the recursion is structural and kernel-reducible. -/
def listDetF : ℕ → List (List ℚ) → ℚ
  | _, [] => 1
  | 0, _ :: _ => 1
  | fuel + 1, row :: rest =>
    (row.enum.map (fun p => (-1 : ℚ) ^ p.1 * p.2 * listDetF fuel (dropCol p.1 rest))).sum

/-- Determinant of a square list-of-rows matrix. -/
def listDet (M : List (List ℚ)) : ℚ := listDetF M.length M

/-- Delete row i of a list-of-rows matrix. -/
def dropRow (i : ℕ) (M : List (List ℚ)) : List (List ℚ) :=
  M.take i ++ M.drop (i + 1)

/-- Inverse of a nonsingular square matrix via the adjugate formula;
entry (i, j) is the signed cofactor of (j, i) divided by the determinant. -/
def listInv (M : List (List ℚ)) : List (List ℚ) :=
  let n := M.length
  let d := listDet M
  (List.range n).map (fun i =>
    (List.range n).map (fun j =>
      (-1 : ℚ) ^ (i + j) * listDet (dropCol i (dropRow j M)) / d))

/-- np.linalg.inv: returns the inverse, or raises LinAlgError exactly when
the matrix is singular. There is no try/except around any call to it in
regress_tfam, so an error propagates out of the whole family computation. -/
def npLinalgInv (M : List (List ℚ)) : Except String (List (List ℚ)) :=
  if listDet M = 0 then .error "Singular matrix" else .ok (listInv M)

/-- Scalar multiple of a list-of-rows matrix. -/
def scaleL (c : ℚ) (M : List (List ℚ)) : List (List ℚ) :=
  M.map (fun r => r.map (fun x => c * x))

/-- M[np.ix_(rs, cs)]: the submatrix at row indices rs and column indices
cs. Out-of-range indices read as 0 and never occur in the pipeline. -/
def submatrixL (M : List (List ℚ)) (rs cs : List ℕ) : List (List ℚ) :=
  rs.map (fun i => cs.map (fun j => (((M.get? i).getD []).get? j).getD 0))

/-- The Gram matrix ORF_matrix.T.dot(ORF_matrix) of a list of columns. -/
def gramL (cols : List (List ℚ)) : List (List ℚ) :=
  cols.map (fun ci => cols.map (fun cj => dot ci cj))

/-- The quadratic form x.dot(M).dot(x) used for the aggregate weights. -/
def quadformL (x : List ℚ) (M : List (List ℚ)) : ℚ :=
  (List.zipWith (fun xi row => xi * dot row x) x M).sum

/-- Positions (0-based) of the elements of a list satisfying p, offset by n. -/
def idxWhereAux {α : Type} (p : α → Bool) : List α → ℕ → List ℕ
  | [], _ => []
  | a :: as, n =>
    if p a then n :: idxWhereAux p as (n + 1) else idxWhereAux p as (n + 1)

/-- Positions of the elements of a list satisfying p: the rownums arrays
produced by pandas groupby indices. -/
def idxWhere {α : Type} (p : α → Bool) (l : List α) : List ℕ := idxWhereAux p l 0

/-- Map a fallible function over a list, stopping at the first error. -/
def exceptMapList {α β : Type} (f : α → Except String β) :
    List α → Except String (List β)
  | [] => .ok []
  | a :: as =>
    match f a with
    | .error e => .error e
    | .ok b =>
      match exceptMapList f as with
      | .error e => .error e
      | .ok bs => .ok (b :: bs)

/-- Deduplicate keeping the first occurrence of each element. -/
def dedupFirstAux {α : Type} [DecidableEq α] (seen : List α) : List α → List α
  | [] => []
  | a :: as =>
    if a ∈ seen then dedupFirstAux seen as else a :: dedupFirstAux (a :: seen) as

/-- Deduplicate keeping the first occurrence of each element (the key order
of a pandas groupby, up to the sorting pandas applies, which no claim
depends on). -/
def dedupFirst {α : Type} [DecidableEq α] (l : List α) : List α := dedupFirstAux [] l

/-- The three result frames of one family: ORF_strength_df rows with their
fitted strengths, and the start and stop records (coordinate, summed
strength, aggregate weight). In start-only mode stopRows stays empty,
mirroring the 2-tuple return value. -/
structure RegOutput where
  orfRows : List (CandRow × ℚ)
  startRows : List (ℤ × ℚ × ℚ)
  stopRows : List (ℤ × ℚ × ℚ)
  deriving DecidableEq

/-- failure_return: the empty marker of a family, zero-row frames. -/
def emptyOutput : RegOutput := ⟨[], [], []⟩

/-- min_str = 1e-6, the sub-threshold pruning constant of line 234. -/
def min_str : ℚ := 1 / 1000000

/-- Zero-support pruning of line 227: keep the (row, column) pairs whose
column has positive dot product with the observed counts. -/
def keptColumns (cands : List CandRow) (cols : List (List ℚ)) (counts : List ℚ) :
    List (CandRow × List ℚ) :=
  (List.zip cands cols).filter (fun p => decide (0 < dot p.2 counts))

/-- Sub-threshold pruning of lines 234-240: pair the kept candidates with
the fitted strengths and keep those strictly above min_str. -/
def prunedFit (kept : List (CandRow × List ℚ)) (strs : List ℚ) :
    List (CandRow × List ℚ × ℚ) :=
  ((List.zip kept strs).filter (fun q => decide (min_str < q.2))).map
    (fun q => (q.1.1, q.1.2, q.2))

/-- The retained candidates of a family: zero-support pruning, then the
external NNLS solve on the reduced matrix, then sub-threshold pruning.
nnlsFn is the scipy.optimize.nnls collaborator, returning the coefficient
vector and the residual norm. -/
def retainedFit (cands : List CandRow) (cols : List (List ℚ)) (counts : List ℚ)
    (nnlsFn : List (List ℚ) → List ℚ → List ℚ × ℚ) :
    List (CandRow × List ℚ × ℚ) :=
  let kept := keptColumns cands cols counts
  prunedFit kept (nnlsFn (kept.map Prod.snd) counts).1

/-- Forget the design columns, keeping each retained row with its fitted
strength: the content of the ORF_strength column. -/
def pairsOf (retained : List (CandRow × List ℚ × ℚ)) : List (CandRow × ℚ) :=
  retained.map (fun q => (q.1, q.2.2))

/-- The rows of ORF_strength_df after all pruning, each with its strength. -/
def fittedPairs (cands : List CandRow) (cols : List (List ℚ)) (counts : List ℚ)
    (nnlsFn : List (List ℚ) → List ℚ → List ℚ × ℚ) : List (CandRow × ℚ) :=
  pairsOf (retainedFit cands cols counts nnlsFn)

/-- Membership predicate for the start-coordinate grouping, lines 255-264:
in start-only mode all non-histop rows (tcoord different from tstop, so
abortive rows count); otherwise only elongating rows (gstop different from
gcoord, which excludes both abortive and histop rows). -/
def startPred (startonly : Bool) (q : CandRow × ℚ) : Bool :=
  if startonly then decide (q.1.tcoord ≠ q.1.tstop)
  else decide (q.1.gstop ≠ q.1.gcoord)

/-- Membership predicate for the stop-coordinate grouping, line 275:
elongating rows plus histop rows, excluding abortive rows. -/
def stopPred (q : CandRow × ℚ) : Bool :=
  decide (q.1.gstop ≠ q.1.gcoord) || decide (q.1.tcoord = q.1.tstop)

/-- The per-coordinate aggregation of lines 265-271 and 279-284: group the
included rows by a key, sum the member strengths, and compute the aggregate
weight as the quadratic form of the member strengths over the inverse of
the covariance submatrix restricted to the member rownums. A singular
submatrix raises, exactly as np.linalg.inv does. -/
def buildGroupRows (keyOf : CandRow → ℤ) (members : List (CandRow × ℚ))
    (cov : List (List ℚ)) : Except String (List (ℤ × ℚ × ℚ)) :=
  exceptMapList (fun g =>
      match npLinalgInv (submatrixL cov
          (idxWhere (fun q => decide (keyOf q.1 = g)) members)
          (idxWhere (fun q => decide (keyOf q.1 = g)) members)) with
      | .error e => .error e
      | .ok minv =>
        .ok (g, ((members.filter (fun q => decide (keyOf q.1 = g))).map Prod.snd).sum,
             quadformL ((members.filter (fun q => decide (keyOf q.1 = g))).map Prod.snd)
               minv))
    (dedupFirst (members.map (fun q => keyOf q.1)))

/-- The tail of buildFull once the covariance matrix exists: the start
aggregation, then (unless start-only) the stop aggregation. -/
def buildTail (pairs : List (CandRow × ℚ)) (cov : List (List ℚ)) (startonly : Bool) :
    Except String RegOutput :=
  match buildGroupRows (fun r => r.gcoord) (pairs.filter (startPred startonly))
      (submatrixL cov (idxWhere (startPred startonly) pairs)
        (idxWhere (startPred startonly) pairs)) with
  | .error e => .error e
  | .ok startRows =>
    if startonly then .ok ⟨pairs, startRows, []⟩
    else
      match buildGroupRows (fun r => r.gstop) (pairs.filter stopPred)
          (submatrixL cov (idxWhere stopPred pairs) (idxWhere stopPred pairs)) with
      | .error e => .error e
      | .ok stopRows => .ok ⟨pairs, startRows, stopRows⟩

/-- Lines 243-296 of regress_tfam: covariance of the fit, then the start
and (unless start-only) stop aggregations. mrows is nnt*len(rdlens), the
number of observation cells. Every inversion failure propagates. -/
def buildFull (retained : List (CandRow × List ℚ × ℚ)) (mrows : ℕ) (resid : ℚ)
    (startonly : Bool) : Except String RegOutput :=
  match npLinalgInv (gramL (retained.map (fun q => q.2.1))) with
  | .error e => .error e
  | .ok graminv =>
    buildTail (pairsOf retained)
      (scaleL (resid * resid / ((mrows : ℚ) - (retained.length : ℚ))) graminv)
      startonly

/-- The numeric core of regress_tfam (lines 227-296): zero-support pruning
with the empty marker when nothing survives, the NNLS solve, sub-threshold
pruning with the empty marker when nothing survives, then covariance and
aggregation, in which any singular inversion propagates as an error. -/
def regressCore (cands : List CandRow) (cols : List (List ℚ)) (counts : List ℚ)
    (nnlsFn : List (List ℚ) → List ℚ → List ℚ × ℚ) (startonly : Bool) :
    Except String RegOutput :=
  if (keptColumns cands cols counts).isEmpty then .ok emptyOutput
  else if (retainedFit cands cols counts nnlsFn).isEmpty then .ok emptyOutput
  else
    buildFull (retainedFit cands cols counts nnlsFn) counts.length
      (nnlsFn ((keptColumns cands cols counts).map Prod.snd) counts).2 startonly

/-! ## Assembly of ORF_strength_df and the chromosome query (C10) -/

/-- Stable insertion of a row into a list sorted by descending tcoord. -/
def insertDesc (a : CandRow) : List CandRow → List CandRow
  | [] => [a]
  | b :: bs => if b.tcoord ≤ a.tcoord then a :: b :: bs else b :: insertDesc a bs

/-- ORF_set.sort(tcoord, ascending=False). -/
def sortTcoordDesc (l : List CandRow) : List CandRow :=
  l.foldr insertDesc []

/-- pandas drop_duplicates on a key, keeping the first occurrence. -/
def dedupByAux {β : Type} [DecidableEq β] (key : CandRow → β) (seen : List β) :
    List CandRow → List CandRow
  | [] => []
  | r :: rs =>
    if key r ∈ seen then dedupByAux key seen rs
    else r :: dedupByAux key (key r :: seen) rs

/-- pandas drop_duplicates on a key, keeping the first occurrence. -/
def dedupBy {β : Type} [DecidableEq β] (key : CandRow → β) (l : List CandRow) :
    List CandRow := dedupByAux key [] l

/-- Lines 187-198: the rows of ORF_strength_df before any pruning:
tcoord-descending sort deduplicated by ORF_name, then one synthetic
abortive row per distinct gcoord (gstop := gcoord, tstop := tcoord + 3),
then, unless start-only, one synthetic histop row per distinct gstop
(gcoord := gstop, tcoord := tstop). -/
def buildCandRows (orfSet : List CandRow) (startonly : Bool) : List CandRow :=
  let base := dedupBy (fun r => r.name) (sortTcoordDesc orfSet)
  let aborts := (dedupBy (fun r => r.gcoord) orfSet).map (fun r =>
    { r with gstop := r.gcoord, tstop := r.tcoord + 3,
             name := toString r.gcoord ++ "_abort" })
  let histops :=
    if startonly then []
    else (dedupBy (fun r => r.gstop) orfSet).map (fun r =>
      { r with gcoord := r.gstop, tcoord := r.tstop,
               name := toString r.gstop ++ "_stop" })
  base ++ aborts ++ histops

/-- The chromosome query of line 300: only rows with tstop > 0 and
tcoord > 0 enter the regression pass. -/
def chromQueryFilter (rows : List CandRow) : List CandRow :=
  rows.filter (fun r => decide (0 < r.tstop) && decide (0 < r.tcoord))

/-! ## Covariance-weight model over Mathlib matrices (C7) -/

/-- Executable nonsingular inverse over the rationals: the adjugate divided
by the determinant. Agrees with the Mathlib inverse on every matrix. -/
def matInvQ {k : ℕ} (M : Matrix (Fin k) (Fin k) ℚ) : Matrix (Fin k) (Fin k) ℚ :=
  M.det⁻¹ • M.adjugate

/-- Line 243: covmat = resid*resid*inv(A.T.dot(A))/dof as a Mathlib matrix,
with A the retained design matrix and dof the observation cells minus the
retained candidate count. -/
def covmatM {m k : ℕ} (A : Matrix (Fin m) (Fin k) ℚ) (resid dof : ℚ) :
    Matrix (Fin k) (Fin k) ℚ :=
  (resid * resid / dof) • matInvQ (Aᵀ * A)

/-- Positive-semidefinite predicate (quadratic form nonneg) for rational
matrices. -/
def PSDq {k : ℕ} (M : Matrix (Fin k) (Fin k) ℚ) : Prop :=
  ∀ v : Fin k → ℚ, 0 ≤ v ⬝ᵥ M.mulVec v

/-- Selection matrix of an index map: row i picks out coordinate e i. -/
def selMat {g k : ℕ} (e : Fin g → Fin k) : Matrix (Fin g) (Fin k) ℚ :=
  Matrix.of fun i j => if e i = j then 1 else 0

/-! ## Concrete instances used by counterexamples and witnesses -/

/-- A configuration that passes the stop-window check but whose start
window ends at the start codon itself: startrange = (1, 0), giving
startnt = (-3, 0), with stoprange = (3, 0) giving stopnt = (-9, 0),
and a single read-length bin. -/
def cfgBad : MetaConfig := ⟨-3, 0, -9, 0, 1⟩

/-- A small configuration with startrange = (1, 1) and stoprange = (3, 0):
startnt = (-3, 3), stopnt = (-9, 0), one read-length bin. -/
def cfgOk : MetaConfig := ⟨-3, 3, -9, 0, 1⟩

/-- A transcript covering family-grid positions 1..12, with a 9-nt ORF at
transcript coordinates 3..12 (grid positions 4..12). -/
def candA : Cand := ⟨[1, 2, 3, 4, 5, 6, 7, 8, 9, 10, 11, 12], 3, 12⟩

/-- A transcript whose 5-prime UTR is spliced differently (it covers grid
position 0 instead of 1) but which carries the same ORF as candA: its
start codon and stop codon sit at the same grid positions 4 and 12. -/
def candB : Cand := ⟨[0, 2, 3, 4, 5, 6, 7, 8, 9, 10, 11, 12], 3, 12⟩

/-- A transcript identical to candA over the extended profile window but
with a different final grid position outside it. -/
def candC : Cand := ⟨[1, 2, 3, 4, 5, 6, 7, 8, 9, 10, 11, 12, 13], 3, 12⟩

/-- A transcript identical to candC except at the last position, which lies
outside the extended window of the candidate. -/
def candD : Cand := ⟨[1, 2, 3, 4, 5, 6, 7, 8, 9, 10, 11, 12, 99], 3, 12⟩

/-- An elongating candidate row: distinct genomic start and stop. -/
def rowA : CandRow := ⟨"a", 1, 10, 5, 20⟩

/-- An elongating candidate row used for pipeline witnesses. -/
def rowB : CandRow := ⟨"b", 1, 9, 5, 20⟩

/-- An NNLS stub returning a perfect fit: coefficient 1, residual 0.
This is what scipy.optimize.nnls returns for the matrix with single
column (1, 0) and counts (1, 0). -/
def nnlsExact : List (List ℚ) → List ℚ → List ℚ × ℚ := fun _ _ => ([1], 0)

/-- An NNLS stub returning coefficient 1 with residual norm 1, as
scipy.optimize.nnls does for the single column (1, 1) and counts (1, 0)
rescaled; only the shape of the result matters to the witnesses. -/
def nnlsOne : List (List ℚ) → List ℚ → List ℚ × ℚ := fun _ _ => ([1], 1)

/-! ## Helper lemmas -/

theorem pyIdx_of_nonneg {n : ℕ} {i : ℤ} (h0 : 0 ≤ i) (h : i ≤ (n : ℤ)) :
    (pyIdx n i : ℤ) = i := by
  unfold pyIdx
  rw [if_neg (by omega), max_eq_left h0, min_eq_left h, Int.toNat_of_nonneg h0]

theorem pyIdx_of_ge {n : ℕ} {i : ℤ} (h : (n : ℤ) ≤ i) : pyIdx n i = n := by
  unfold pyIdx
  rw [if_neg (by omega), max_eq_left (by omega), min_eq_right h, Int.toNat_natCast]

theorem pyIdx_of_neg {n : ℕ} {i : ℤ} (h : i < 0) (h2 : 0 ≤ (n : ℤ) + i) :
    (pyIdx n i : ℤ) = (n : ℤ) + i := by
  unfold pyIdx
  rw [if_pos h, max_eq_left h2, min_eq_left (by omega), Int.toNat_of_nonneg h2]

/-! ## C1: shape of ORF_profile -/

/-- C1 (counterexample): the claim quantifies over every configuration
passing the stop-window check, but a configuration whose start window ends
at the start codon (startnt[1] = 0, from startrange upper bound 0) passes
that check and yields, at the shortest ORF length 3, a profile with 3
columns instead of the claimed 3 + stopnt[1] - startnt[0] = 6: the slice
startprof[:, :3-startnt[0]] clamps at the 3 available columns. -/
theorem ORF_profile_shape_cex :
    cfgBad.valid
    ∧ ((zeroProf 1 3).cols : ℤ) = cfgBad.startnt1 - cfgBad.startnt0
    ∧ (zeroProf 1 3).cols = 3
    ∧ ((zeroProf 1 9).cols : ℤ) = cfgBad.stopnt1 - cfgBad.stopnt0
    ∧ (0 : ℤ) < 3 ∧ (3 : ℤ) ∣ 3
    ∧ (ORF_profile cfgBad (zeroProf 1 3) (zeroProf 1 3) (zeroProf 1 9) 3).cols = 3
    ∧ ((3 : ℤ) + cfgBad.stopnt1 - cfgBad.startnt0 ≠ (3 : ℤ)) := by
  decide

/-- C1 (amended): for every configuration passing the stop-window check
whose start window additionally covers at least the start codon
(startnt[1] at least 3; the defaults give 150), and every positive
multiple-of-3 ORF length, ORF_profile returns an array with exactly
orflen + stopnt[1] - startnt[0] columns and one row per read-length bin,
in all four length regimes. -/
theorem ORF_profile_shape (cfg : MetaConfig) (hv : cfg.valid)
    (h3 : 3 ≤ cfg.startnt1) (startprof cdsprof stopprof : NPArray)
    (hsc : (startprof.cols : ℤ) = cfg.startnt1 - cfg.startnt0)
    (hcc : cdsprof.cols = 3)
    (hpc : (stopprof.cols : ℤ) = cfg.stopnt1 - cfg.stopnt0)
    (hsr : startprof.rows = cfg.bins)
    (orflen : ℤ) (hpos : 0 < orflen) (hdvd : 3 ∣ orflen) :
    ((ORF_profile cfg startprof cdsprof stopprof orflen).cols : ℤ)
      = orflen + cfg.stopnt1 - cfg.startnt0
    ∧ (ORF_profile cfg startprof cdsprof stopprof orflen).rows = cfg.bins := by
  obtain ⟨hs0, hs1, hp0, hp1, hds0, hds1, hdp0, hdp1, hchk⟩ := hv
  have hp9 : cfg.stopnt0 ≤ -9 := by omega
  unfold ORF_profile
  simp only [shortStop]
  split_ifs with h1 h2 hsh
  · -- long regime: start + tiled body + stop
    refine ⟨?_, hsr⟩
    simp only [NPArray.hstack2, NPArray.tile, hcc]
    have hdv : (3 : ℤ) ∣ orflen - cfg.startnt1 + cfg.stopnt0 := by omega
    omega
  · -- start plus truncated stop
    refine ⟨?_, hsr⟩
    simp only [NPArray.hstack2, NPArray.colsFrom]
    have hpy : (pyIdx stopprof.cols (cfg.startnt1 - orflen - cfg.stopnt1) : ℤ)
        = (stopprof.cols : ℤ) + (cfg.startnt1 - orflen - cfg.stopnt1) :=
      pyIdx_of_neg (by omega) (by omega)
    omega
  · -- short regime (9 <= orflen < startnt1 + 9)
    refine ⟨?_, by simpa [NPArray.hstack2, NPArray.colsTo] using hsr⟩
    simp only [NPArray.hstack2, NPArray.colsTo, NPArray.colsFrom]
    have hpy1 : (pyIdx startprof.cols (orflen - 9 - cfg.startnt0) : ℤ)
        = orflen - 9 - cfg.startnt0 :=
      pyIdx_of_nonneg (by omega) (by omega)
    have hpy2 : (pyIdx stopprof.cols (-9 - cfg.stopnt1) : ℤ)
        = -9 - cfg.stopnt1 + (stopprof.cols : ℤ) := by
      rw [pyIdx_of_neg (by omega) (by omega)]
      ring
    omega
  · -- very short regime (orflen = 3 or 6)
    refine ⟨?_, by simpa [NPArray.hstack2, NPArray.colsTo] using hsr⟩
    simp only [NPArray.hstack2, NPArray.colsTo, NPArray.colsFrom]
    have hpy1 : (pyIdx startprof.cols (3 - cfg.startnt0) : ℤ) = 3 - cfg.startnt0 :=
      pyIdx_of_nonneg (by omega) (by omega)
    have hpy2 : (pyIdx stopprof.cols (3 - orflen - cfg.stopnt0) : ℤ)
        = 3 - orflen - cfg.stopnt0 :=
      pyIdx_of_nonneg (by omega) (by omega)
    omega

/-- C1 (witness): the amended theorem applied to the small valid
configuration cfgOk at the boundary length 3. -/
theorem ORF_profile_shape_wit :
    cfgOk.valid ∧ (3 : ℤ) ≤ cfgOk.startnt1
    ∧ ((ORF_profile cfgOk (zeroProf 1 6) (zeroProf 1 3) (zeroProf 1 9) 3).cols : ℤ)
        = 3 + cfgOk.stopnt1 - cfgOk.startnt0
    ∧ (ORF_profile cfgOk (zeroProf 1 6) (zeroProf 1 3) (zeroProf 1 9) 3).rows
        = cfgOk.bins :=
  ⟨by decide, by decide,
   (ORF_profile_shape cfgOk (by decide) (by decide) _ _ _ (by decide) (by decide)
      (by decide) (by decide) 3 (by decide) (by decide)).1,
   (ORF_profile_shape cfgOk (by decide) (by decide) _ _ _ (by decide) (by decide)
      (by decide) (by decide) 3 (by decide) (by decide)).2⟩

/-! ## C4: design-matrix columns of candidates with equal genomic start
and stop -/

/-- C4 (counterexample): two candidates on transcripts of the same family
whose genomic start and genomic stop coincide (equal grid indices 4 and 12)
but whose transcripts splice the 5-prime flank differently produce columns
with different nonzero row indices, because the modeled window includes
startnt[0] = -3 nucleotides of 5-prime UTR, which cover different genomic
positions on the two transcripts. -/
theorem candColumn_gcoord_cex :
    cfgOk.valid
    ∧ candA.gcoordIdx = candB.gcoordIdx
    ∧ candA.gstopIdx = candB.gstopIdx
    ∧ candColumn cfgOk (zeroProf 1 6) (zeroProf 1 3) (zeroProf 1 9) 13 1 candA
      ≠ candColumn cfgOk (zeroProf 1 6) (zeroProf 1 3) (zeroProf 1 9) 13 1 candB := by
  decide

/-- C4 (amended): two non-histop candidates yield identical design-matrix
columns (same row indices and same profile values) whenever they have equal
ORF lengths, equal UTR trims, and their transcripts cover the same grid
positions over the whole extended profile window (the window including the
startnt[0] and stopnt[1] flanks, after trimming); equality of genomic start
and stop alone does not suffice when the flanking or internal splicing
differs. -/
theorem candColumn_eq_of_window_eq (cfg : MetaConfig)
    (startprof cdsprof stopprof : NPArray) (nnt bins : ℕ) (c1 c2 : Cand)
    (h1 : c1.tcoord ≠ c1.tstop) (h2 : c2.tcoord ≠ c2.tstop)
    (hlen : c1.tstop - c1.tcoord = c2.tstop - c2.tcoord)
    (hsa : startadj cfg c1.tcoord = startadj cfg c2.tcoord)
    (hpa : stopadj cfg c1.tstop (c1.tidIdx.length : ℤ)
         = stopadj cfg c2.tstop (c2.tidIdx.length : ℤ))
    (hwin : pySlice c1.tidIdx (c1.tcoord + cfg.startnt0 + startadj cfg c1.tcoord)
              (c1.tstop + cfg.stopnt1 - stopadj cfg c1.tstop (c1.tidIdx.length : ℤ))
          = pySlice c2.tidIdx (c2.tcoord + cfg.startnt0 + startadj cfg c2.tcoord)
              (c2.tstop + cfg.stopnt1 - stopadj cfg c2.tstop (c2.tidIdx.length : ℤ))) :
    candColumn cfg startprof cdsprof stopprof nnt bins c1
      = candColumn cfg startprof cdsprof stopprof nnt bins c2 := by
  unfold candColumn
  rw [if_pos h1, if_pos h2, hwin, hsa, hpa, hlen]

/-- C4 (witness): two distinct transcripts agreeing over the extended
window of a shared candidate (but differing at a position outside it) get
identical columns. -/
theorem candColumn_eq_of_window_eq_wit :
    candC ≠ candD
    ∧ candColumn cfgOk (zeroProf 1 6) (zeroProf 1 3) (zeroProf 1 9) 14 1 candC
      = candColumn cfgOk (zeroProf 1 6) (zeroProf 1 3) (zeroProf 1 9) 14 1 candD :=
  ⟨by decide,
   candColumn_eq_of_window_eq cfgOk _ _ _ 14 1 candC candD (by decide) (by decide)
     (by decide) (by decide) (by decide) (by decide)⟩

/-! ## C8: the profile-length versus index-count assertion -/

/-- C8: the assembly loop raises its AssertionError exactly when some
candidate has a tiled index count different from its profile length (and
the error precedes matrix assembly, which consumes only an ok value); when
every candidate matches, it returns all the columns and no error arises.
The two iffs cover both directions of the claim. -/
theorem buildColumns_mismatch_iff (cfg : MetaConfig)
    (startprof cdsprof stopprof : NPArray) (nnt bins : ℕ) (cands : List Cand) :
    (buildColumns cfg startprof cdsprof stopprof nnt bins cands
        = .ok (cands.map (candColumn cfg startprof cdsprof stopprof nnt bins))
      ↔ ∀ c ∈ cands,
          (candColumn cfg startprof cdsprof stopprof nnt bins c).1.length
            = (candColumn cfg startprof cdsprof stopprof nnt bins c).2.length)
    ∧ (buildColumns cfg startprof cdsprof stopprof nnt bins cands
        = .error "ORF length does not match index length"
      ↔ ∃ c ∈ cands,
          (candColumn cfg startprof cdsprof stopprof nnt bins c).1.length
            ≠ (candColumn cfg startprof cdsprof stopprof nnt bins c).2.length) := by
  induction cands with
  | nil => simp [buildColumns]
  | cons c rest ih =>
    by_cases hc : (candColumn cfg startprof cdsprof stopprof nnt bins c).1.length
        = (candColumn cfg startprof cdsprof stopprof nnt bins c).2.length
    · have hstep : buildColumns cfg startprof cdsprof stopprof nnt bins (c :: rest)
          = match buildColumns cfg startprof cdsprof stopprof nnt bins rest with
            | .error e => .error e
            | .ok cols =>
                .ok (candColumn cfg startprof cdsprof stopprof nnt bins c :: cols) := by
        simp only [buildColumns]
        rw [if_neg (not_not_intro hc)]
      rcases hrest : buildColumns cfg startprof cdsprof stopprof nnt bins rest
        with e | cols
      · rw [hrest] at hstep
        constructor
        · constructor
          · intro h
            rw [hstep] at h
            exact absurd h (by simp)
          · intro hall
            have hok := (ih.1).mpr (fun x hx => hall x (List.mem_cons_of_mem _ hx))
            rw [hrest] at hok
            exact absurd hok (by simp)
        · constructor
          · intro h
            rw [hstep] at h
            simp only [Except.error.injEq] at h
            subst h
            exact ((ih.2).mp hrest).imp
              (fun x hx => ⟨List.mem_cons_of_mem _ hx.1, hx.2⟩)
          · intro ⟨x, hx, hne⟩
            rcases List.mem_cons.mp hx with rfl | hx2
            · exact absurd hc hne
            · have herr := (ih.2).mpr ⟨x, hx2, hne⟩
              rw [hrest] at herr
              simp only [Except.error.injEq] at herr
              rw [hstep, herr]
      · rw [hrest] at hstep
        constructor
        · constructor
          · intro h
            rw [hstep] at h
            simp only [List.map_cons, Except.ok.injEq, List.cons.injEq] at h
            intro x hx
            rcases List.mem_cons.mp hx with rfl | hx2
            · exact hc
            · exact (ih.1).mp (by rw [hrest, h.2]) x hx2
          · intro hall
            have hok := (ih.1).mpr (fun x hx => hall x (List.mem_cons_of_mem _ hx))
            rw [hrest] at hok
            simp only [Except.ok.injEq] at hok
            rw [hstep, hok, List.map_cons]
        · constructor
          · intro h
            rw [hstep] at h
            exact absurd h (by simp)
          · intro ⟨x, hx, hne⟩
            rcases List.mem_cons.mp hx with rfl | hx2
            · exact absurd hc hne
            · have herr := (ih.2).mpr ⟨x, hx2, hne⟩
              rw [hrest] at herr
              exact absurd herr (by simp)
    · have hstep : buildColumns cfg startprof cdsprof stopprof nnt bins (c :: rest)
          = .error "ORF length does not match index length" := by
        simp only [buildColumns]
        rw [if_pos hc]
      refine ⟨⟨fun h => ?_, fun h => absurd (h c (by simp)) hc⟩,
        ⟨fun _ => ⟨c, by simp, hc⟩, fun _ => hstep⟩⟩
      rw [hstep] at h
      exact absurd h (by simp)

/-! ## Pipeline helper lemmas -/

theorem exceptMapList_ok_mem {α β : Type} (f : α → Except String β) (l : List α)
    (bs : List β) (h : exceptMapList f l = .ok bs) :
    ∀ b ∈ bs, ∃ a ∈ l, f a = .ok b := by
  induction l generalizing bs with
  | nil =>
    simp only [exceptMapList, Except.ok.injEq] at h
    subst h
    simp
  | cons a as ih =>
    simp only [exceptMapList] at h
    rcases hfa : f a with e | b0
    · rw [hfa] at h
      exact absurd h (by simp)
    · rw [hfa] at h
      rcases hrest : exceptMapList f as with e | bs0
      · rw [hrest] at h
        exact absurd h (by simp)
      · rw [hrest] at h
        simp only [Except.ok.injEq] at h
        subst h
        intro b hb
        rcases List.mem_cons.mp hb with rfl | hb2
        · exact ⟨a, by simp, hfa⟩
        · obtain ⟨a2, ha2, hfa2⟩ := ih bs0 hrest b hb2
          exact ⟨a2, List.mem_cons_of_mem _ ha2, hfa2⟩

theorem buildGroupRows_mem (keyOf : CandRow → ℤ) (members : List (CandRow × ℚ))
    (cov : List (List ℚ)) (rows : List (ℤ × ℚ × ℚ))
    (h : buildGroupRows keyOf members cov = .ok rows) :
    ∀ r ∈ rows,
      r.2.1 = ((members.filter (fun q => decide (keyOf q.1 = r.1))).map Prod.snd).sum := by
  intro r hr
  obtain ⟨g, _, hfg⟩ := exceptMapList_ok_mem _ _ _ h r hr
  rcases hinv : npLinalgInv (submatrixL cov
      (idxWhere (fun q => decide (keyOf q.1 = g)) members)
      (idxWhere (fun q => decide (keyOf q.1 = g)) members)) with e | minv
  · rw [hinv] at hfg
    exact absurd hfg (by simp)
  · rw [hinv] at hfg
    simp only [Except.ok.injEq] at hfg
    subst hfg
    rfl

theorem prunedFit_strength (kept : List (CandRow × List ℚ)) (strs : List ℚ) :
    ∀ q ∈ prunedFit kept strs, min_str < q.2.2 := by
  intro q hq
  unfold prunedFit at hq
  obtain ⟨p, hp, rfl⟩ := List.mem_map.mp hq
  simpa using List.of_mem_filter hp

theorem fittedPairs_strength (cands : List CandRow) (cols : List (List ℚ))
    (counts : List ℚ) (nnlsFn : List (List ℚ) → List ℚ → List ℚ × ℚ) :
    ∀ q ∈ fittedPairs cands cols counts nnlsFn, min_str < q.2 := by
  intro q hq
  unfold fittedPairs pairsOf at hq
  obtain ⟨p, hp, rfl⟩ := List.mem_map.mp hq
  exact prunedFit_strength _ _ p hp

theorem min_str_pos : 0 < min_str := by norm_num [min_str]

theorem kept_nil_empty_marker (cands : List CandRow) (cols : List (List ℚ))
    (counts : List ℚ) (nnlsFn : List (List ℚ) → List ℚ → List ℚ × ℚ)
    (startonly : Bool) (hk : keptColumns cands cols counts = []) :
    regressCore cands cols counts nnlsFn startonly = .ok emptyOutput := by
  unfold regressCore
  rw [if_pos (List.isEmpty_iff.mpr hk)]

theorem retained_nil_empty_marker (cands : List CandRow) (cols : List (List ℚ))
    (counts : List ℚ) (nnlsFn : List (List ℚ) → List ℚ → List ℚ × ℚ)
    (startonly : Bool) (hr : retainedFit cands cols counts nnlsFn = []) :
    regressCore cands cols counts nnlsFn startonly = .ok emptyOutput := by
  unfold regressCore
  by_cases hk : (keptColumns cands cols counts).isEmpty
  · rw [if_pos hk]
  · rw [if_neg hk, if_pos (List.isEmpty_iff.mpr hr)]

theorem regressCore_ok_elim (cands : List CandRow) (cols : List (List ℚ))
    (counts : List ℚ) (nnlsFn : List (List ℚ) → List ℚ → List ℚ × ℚ)
    (startonly : Bool) (out : RegOutput)
    (h : regressCore cands cols counts nnlsFn startonly = .ok out) :
    out = emptyOutput ∨
    ∃ cov, buildTail (fittedPairs cands cols counts nnlsFn) cov startonly = .ok out := by
  unfold regressCore at h
  by_cases hk : (keptColumns cands cols counts).isEmpty
  · rw [if_pos hk] at h
    simp only [Except.ok.injEq] at h
    exact Or.inl h.symm
  · rw [if_neg hk] at h
    by_cases hr : (retainedFit cands cols counts nnlsFn).isEmpty
    · rw [if_pos hr] at h
      simp only [Except.ok.injEq] at h
      exact Or.inl h.symm
    · rw [if_neg hr] at h
      unfold buildFull at h
      rcases hinv : npLinalgInv (gramL ((retainedFit cands cols counts nnlsFn).map
          (fun q => q.2.1))) with e | gi
      · rw [hinv] at h
        exact absurd h (by simp)
      · rw [hinv] at h
        exact Or.inr ⟨_, h⟩

theorem buildTail_ok_elim (pairs : List (CandRow × ℚ)) (cov : List (List ℚ))
    (startonly : Bool) (out : RegOutput)
    (h : buildTail pairs cov startonly = .ok out) :
    out.orfRows = pairs
    ∧ (∃ covS, buildGroupRows (fun r => r.gcoord) (pairs.filter (startPred startonly))
        covS = .ok out.startRows)
    ∧ (out.stopRows = [] ∨
        ∃ covT, buildGroupRows (fun r => r.gstop) (pairs.filter stopPred)
          covT = .ok out.stopRows) := by
  unfold buildTail at h
  rcases hs : buildGroupRows (fun r => r.gcoord) (pairs.filter (startPred startonly))
      (submatrixL cov (idxWhere (startPred startonly) pairs)
        (idxWhere (startPred startonly) pairs)) with e | srows
  · rw [hs] at h
    exact absurd h (by simp)
  · rw [hs] at h
    dsimp only at h
    by_cases hso : startonly = true
    · rw [if_pos hso] at h
      simp only [Except.ok.injEq] at h
      subst h
      exact ⟨rfl, ⟨_, hs⟩, Or.inl rfl⟩
    · rw [if_neg hso] at h
      rcases ht : buildGroupRows (fun r => r.gstop) (pairs.filter stopPred)
          (submatrixL cov (idxWhere stopPred pairs) (idxWhere stopPred pairs))
        with e | trows
      · rw [ht] at h
        exact absurd h (by simp)
      · rw [ht] at h
        simp only [Except.ok.injEq] at h
        subst h
        exact ⟨rfl, ⟨_, hs⟩, Or.inr ⟨_, ht⟩⟩

theorem dot_nonneg (v w : List ℚ) (hv : ∀ x ∈ v, 0 ≤ x) (hw : ∀ x ∈ w, 0 ≤ x) :
    0 ≤ dot v w := by
  induction v generalizing w with
  | nil => simp [dot]
  | cons a as ih =>
    cases w with
    | nil => simp [dot]
    | cons b bs =>
      simp only [dot, List.zipWith_cons_cons, List.sum_cons]
      have h1 : 0 ≤ a * b :=
        mul_nonneg (hv a (by simp)) (hw b (by simp))
      have h2 : 0 ≤ dot as bs :=
        ih bs (fun x hx => hv x (List.mem_cons_of_mem _ hx))
          (fun x hx => hw x (List.mem_cons_of_mem _ hx))
      unfold dot at h2
      linarith

theorem keptColumns_row_mem (cands : List CandRow) (cols : List (List ℚ))
    (counts : List ℚ) : ∀ p ∈ keptColumns cands cols counts, p.1 ∈ cands := by
  intro p hp
  obtain ⟨a, b⟩ := p
  exact (List.of_mem_zip (List.mem_of_mem_filter hp)).1

theorem fittedPairs_row_mem (cands : List CandRow) (cols : List (List ℚ))
    (counts : List ℚ) (nnlsFn : List (List ℚ) → List ℚ → List ℚ × ℚ) :
    ∀ q ∈ fittedPairs cands cols counts nnlsFn, q.1 ∈ cands := by
  intro q hq
  unfold fittedPairs pairsOf at hq
  obtain ⟨p, hp, rfl⟩ := List.mem_map.mp hq
  unfold retainedFit prunedFit at hp
  obtain ⟨p2, hp2, rfl⟩ := List.mem_map.mp hp
  have hz := List.mem_of_mem_filter hp2
  obtain ⟨⟨a, b⟩, c⟩ := p2
  exact keptColumns_row_mem cands cols counts _ (List.of_mem_zip hz).1

theorem mem_insertDesc {a b : CandRow} {l : List CandRow}
    (h : b ∈ insertDesc a l) : b = a ∨ b ∈ l := by
  induction l with
  | nil =>
    simp only [insertDesc, List.mem_singleton] at h
    exact Or.inl h
  | cons c cs ih =>
    unfold insertDesc at h
    by_cases hc : c.tcoord ≤ a.tcoord
    · rw [if_pos hc] at h
      rcases List.mem_cons.mp h with rfl | h2
      · exact Or.inl rfl
      · exact Or.inr h2
    · rw [if_neg hc] at h
      rcases List.mem_cons.mp h with rfl | h2
      · exact Or.inr (List.mem_cons_self _ _)
      · rcases ih h2 with rfl | h3
        · exact Or.inl rfl
        · exact Or.inr (List.mem_cons_of_mem _ h3)

theorem sortTcoordDesc_subset {r : CandRow} {l : List CandRow}
    (h : r ∈ sortTcoordDesc l) : r ∈ l := by
  induction l with
  | nil => exact absurd h (by simp [sortTcoordDesc])
  | cons a as ih =>
    unfold sortTcoordDesc at h ih
    rcases mem_insertDesc h with rfl | h2
    · exact List.mem_cons_self _ _
    · exact List.mem_cons_of_mem _ (ih h2)

theorem dedupByAux_subset {β : Type} [DecidableEq β] (key : CandRow → β)
    (seen : List β) {r : CandRow} {l : List CandRow}
    (h : r ∈ dedupByAux key seen l) : r ∈ l := by
  induction l generalizing seen with
  | nil => exact absurd h (by simp [dedupByAux])
  | cons a as ih =>
    unfold dedupByAux at h
    by_cases ha : key a ∈ seen
    · rw [if_pos ha] at h
      exact List.mem_cons_of_mem _ (ih _ h)
    · rw [if_neg ha] at h
      rcases List.mem_cons.mp h with rfl | h2
      · exact List.mem_cons_self _ _
      · exact List.mem_cons_of_mem _ (ih _ h2)

theorem dedupBy_subset {β : Type} [DecidableEq β] (key : CandRow → β)
    {r : CandRow} {l : List CandRow} (h : r ∈ dedupBy key l) : r ∈ l :=
  dedupByAux_subset key [] h

theorem buildCandRows_pos (src : List CandRow) (startonly : Bool)
    (hsrc : ∀ s ∈ src, 0 < s.tcoord ∧ 0 < s.tstop) :
    ∀ r ∈ buildCandRows src startonly, 0 < r.tcoord ∧ 0 < r.tstop := by
  intro r hr
  unfold buildCandRows at hr
  rcases List.mem_append.mp hr with hr1 | hr2
  · rcases List.mem_append.mp hr1 with hbase | habort
    · exact hsrc r (sortTcoordDesc_subset (dedupBy_subset _ hbase))
    · obtain ⟨s, hs, rfl⟩ := List.mem_map.mp habort
      have := hsrc s (dedupBy_subset _ hs)
      exact ⟨this.1, by simp only []; omega⟩
  · by_cases hso : startonly
    · rw [if_pos hso] at hr2
      exact absurd hr2 (List.not_mem_nil r)
    · rw [if_neg hso] at hr2
      obtain ⟨s, hs, rfl⟩ := List.mem_map.mp hr2
      have := hsrc s (dedupBy_subset _ hs)
      exact ⟨this.2, this.2⟩

/-! ## C2: non-negativity and the sub-threshold bound of reported
strengths -/

/-- C2: whenever a family produces a result, every strength in the
ORF_strength column is strictly above the 1e-6 threshold (hence
non-negative), because line 238 keeps exactly the candidates whose fitted
value exceeds min_str; and every summed start or stop strength, being a sum
of such member strengths, is non-negative. -/
theorem strengths_above_threshold (cands : List CandRow) (cols : List (List ℚ))
    (counts : List ℚ) (nnlsFn : List (List ℚ) → List ℚ → List ℚ × ℚ)
    (startonly : Bool) (out : RegOutput)
    (h : regressCore cands cols counts nnlsFn startonly = .ok out) :
    (∀ q ∈ out.orfRows, min_str < q.2 ∧ 0 ≤ q.2)
    ∧ (∀ r ∈ out.startRows, 0 ≤ r.2.1)
    ∧ (∀ r ∈ out.stopRows, 0 ≤ r.2.1) := by
  have hpairs : ∀ q ∈ fittedPairs cands cols counts nnlsFn, 0 ≤ q.2 := fun q hq =>
    le_of_lt (min_str_pos.trans (fittedPairs_strength cands cols counts nnlsFn q hq))
  rcases regressCore_ok_elim cands cols counts nnlsFn startonly out h with rfl | ⟨cov, htail⟩
  · exact ⟨by simp [emptyOutput], by simp [emptyOutput], by simp [emptyOutput]⟩
  · obtain ⟨ho, ⟨covS, hsrows⟩, hstops⟩ := buildTail_ok_elim _ _ _ _ htail
    refine ⟨?_, ?_, ?_⟩
    · intro q hq
      rw [ho] at hq
      exact ⟨fittedPairs_strength cands cols counts nnlsFn q hq, hpairs q hq⟩
    · intro r hr
      rw [buildGroupRows_mem _ _ _ _ hsrows r hr]
      refine List.sum_nonneg ?_
      intro x hx
      obtain ⟨q, hq, rfl⟩ := List.mem_map.mp hx
      exact hpairs q (List.mem_of_mem_filter (List.mem_of_mem_filter hq))
    · rcases hstops with hnil | ⟨covT, htrows⟩
      · intro r hr
        rw [hnil] at hr
        exact absurd hr (List.not_mem_nil r)
      · intro r hr
        rw [buildGroupRows_mem _ _ _ _ htrows r hr]
        refine List.sum_nonneg ?_
        intro x hx
        obtain ⟨q, hq, rfl⟩ := List.mem_map.mp hx
        exact hpairs q (List.mem_of_mem_filter (List.mem_of_mem_filter hq))

/-- C2 (witness): a one-candidate family solved with unit strength. -/
theorem strengths_above_threshold_wit :
    regressCore [rowB] [[1, 1]] [1, 1] nnlsOne false
      = .ok ⟨[(rowB, 1)], [(5, 1, 2)], [(20, 1, 2)]⟩
    ∧ (∀ q ∈ (⟨[(rowB, 1)], [(5, 1, 2)], [(20, 1, 2)]⟩ : RegOutput).orfRows,
        min_str < q.2 ∧ 0 ≤ q.2)
    ∧ (∀ r ∈ (⟨[(rowB, 1)], [(5, 1, 2)], [(20, 1, 2)]⟩ : RegOutput).startRows,
        0 ≤ r.2.1) := by
  have h : regressCore [rowB] [[1, 1]] [1, 1] nnlsOne false
      = .ok ⟨[(rowB, 1)], [(5, 1, 2)], [(20, 1, 2)]⟩ := by
    norm_num [regressCore, keptColumns, retainedFit, prunedFit, buildFull, buildTail,
      buildGroupRows, npLinalgInv, listDet, listDetF, listInv, dot, gramL, scaleL,
      submatrixL, quadformL, idxWhere, idxWhereAux, exceptMapList, dedupFirst,
      dedupFirstAux, min_str, emptyOutput, startPred, stopPred, dropCol, dropRow,
      pairsOf, fittedPairs, rowB, nnlsOne, List.range_succ, List.range_zero]
  exact ⟨h, (strengths_above_threshold _ _ _ _ _ _ h).1,
    (strengths_above_threshold _ _ _ _ _ _ h).2.1⟩

/-! ## C3: handling of per-family numeric degeneracies -/

/-- C3 (counterexample): the claim says every numeric degeneracy, including
a singular covariance submatrix, yields the empty marker with no exception.
In fact regress_tfam wraps none of its np.linalg.inv calls in a handler: a
family with one retained candidate fitted perfectly (residual 0) gets the
all-zero covariance matrix, whose 1x1 start-group submatrix is singular, and
the LinAlgError propagates out of the family computation instead of an
empty marker. nnlsExact is exactly what scipy nnls returns on this input
(column (1,0), counts (1,0): coefficient 1, residual 0). -/
theorem degeneracy_raises_cex :
    regressCore [rowA] [[1, 0]] [1, 0] nnlsExact false = .error "Singular matrix" := by
  norm_num [regressCore, keptColumns, retainedFit, prunedFit, buildFull, buildTail,
    buildGroupRows, npLinalgInv, listDet, listDetF, listInv, dot, gramL, scaleL,
    submatrixL, quadformL, idxWhere, idxWhereAux, exceptMapList, dedupFirst,
    dedupFirstAux, min_str, emptyOutput, startPred, stopPred, dropCol, dropRow,
    pairsOf, fittedPairs, rowA, nnlsExact, List.range_succ, List.range_zero]

/-- C3 (amended): the degeneracies that regress_tfam does handle are the
NNLS-side ones: when zero-support pruning leaves no column, or when
sub-threshold pruning leaves no candidate, the family returns its explicit
empty marker (zero-row frames of the same shape) and no exception arises; a
singular covariance submatrix, by contrast, raises a LinAlgError that
propagates (see the counterexample). -/
theorem degeneracy_empty_marker (cands : List CandRow) (cols : List (List ℚ))
    (counts : List ℚ) (nnlsFn : List (List ℚ) → List ℚ → List ℚ × ℚ)
    (startonly : Bool) :
    (keptColumns cands cols counts = [] →
      regressCore cands cols counts nnlsFn startonly = .ok emptyOutput)
    ∧ (retainedFit cands cols counts nnlsFn = [] →
      regressCore cands cols counts nnlsFn startonly = .ok emptyOutput) :=
  ⟨kept_nil_empty_marker cands cols counts nnlsFn startonly,
   retained_nil_empty_marker cands cols counts nnlsFn startonly⟩

/-- C3 (witness): a family whose only column has zero dot product with the
counts returns the empty marker. -/
theorem degeneracy_empty_marker_wit :
    keptColumns [rowA] [[0, 0]] [1, 1] = []
    ∧ regressCore [rowA] [[0, 0]] [1, 1] nnlsExact false = .ok emptyOutput := by
  have hk : keptColumns [rowA] [[0, 0]] [1, 1] = [] := by
    norm_num [keptColumns, dot]
  exact ⟨hk, (degeneracy_empty_marker [rowA] [[0, 0]] [1, 1] nnlsExact false).1 hk⟩

/-! ## C5: zero-support pruning -/

/-- C5: since the design-matrix entries and the observed counts are all
non-negative (profile densities are averages of non-negative counts), a
column has positive dot product with the counts exactly when that dot
product is nonzero, so line 227 keeps exactly the columns with nonzero dot
product and drops exactly those with zero dot product; if every column
drops the family returns its empty marker; and the NNLS solve is invoked
precisely on the reduced (kept) columns. -/
theorem prune_zero_support (cands : List CandRow) (cols : List (List ℚ))
    (counts : List ℚ)
    (hcols : ∀ col ∈ cols, ∀ x ∈ col, 0 ≤ x) (hcounts : ∀ x ∈ counts, 0 ≤ x) :
    keptColumns cands cols counts
      = (List.zip cands cols).filter (fun p => decide (dot p.2 counts ≠ 0))
    ∧ (keptColumns cands cols counts = [] →
        ∀ nnlsFn startonly, regressCore cands cols counts nnlsFn startonly
          = .ok emptyOutput)
    ∧ (∀ nnlsFn, retainedFit cands cols counts nnlsFn
        = prunedFit (keptColumns cands cols counts)
            (nnlsFn ((keptColumns cands cols counts).map Prod.snd) counts).1) := by
  refine ⟨?_, fun hk nnlsFn startonly =>
    kept_nil_empty_marker cands cols counts nnlsFn startonly hk, fun _ => rfl⟩
  unfold keptColumns
  refine List.filter_congr ?_
  intro p hp
  obtain ⟨a, b⟩ := p
  have hd : 0 ≤ dot b counts :=
    dot_nonneg b counts (hcols b (List.of_mem_zip hp).2) hcounts
  simp only [decide_eq_decide]
  exact ⟨fun hlt => ne_of_gt hlt, fun hne => lt_of_le_of_ne hd (Ne.symm hne)⟩

/-- C5 (witness): a family with one supported and one unsupported column. -/
theorem prune_zero_support_wit :
    (∀ col ∈ [[(1 : ℚ), 0], [0, 0]], ∀ x ∈ col, 0 ≤ x)
    ∧ (∀ x ∈ [(1 : ℚ), 0], 0 ≤ x)
    ∧ keptColumns [rowA, rowB] [[1, 0], [0, 0]] [1, 0]
      = (List.zip [rowA, rowB] [[(1 : ℚ), 0], [0, 0]]).filter
          (fun p => decide (dot p.2 [1, 0] ≠ 0)) := by
  have h1 : ∀ col ∈ [[(1 : ℚ), 0], [0, 0]], ∀ x ∈ col, 0 ≤ x := by
    intro col hcol x hx
    rcases List.mem_cons.mp hcol with rfl | hcol2
    · rcases List.mem_cons.mp hx with rfl | hx2
      · norm_num
      · rcases List.mem_cons.mp hx2 with rfl | hx3
        · norm_num
        · exact absurd hx3 (List.not_mem_nil x)
    · rcases List.mem_cons.mp hcol2 with rfl | hcol3
      · rcases List.mem_cons.mp hx with rfl | hx2
        · norm_num
        · rcases List.mem_cons.mp hx2 with rfl | hx3
          · norm_num
          · exact absurd hx3 (List.not_mem_nil x)
      · exact absurd hcol3 (List.not_mem_nil col)
  have h2 : ∀ x ∈ [(1 : ℚ), 0], 0 ≤ x := by
    intro x hx
    rcases List.mem_cons.mp hx with rfl | hx2
    · norm_num
    · rcases List.mem_cons.mp hx2 with rfl | hx3
      · norm_num
      · exact absurd hx3 (List.not_mem_nil x)
  exact ⟨h1, h2, (prune_zero_support [rowA, rowB] [[1, 0], [0, 0]] [1, 0] h1 h2).1⟩

/-! ## C6: start-record strengths are exact member sums -/

/-- C6: for every start record of a family result, the reported
start_strength is the exact arithmetic sum of the ORF_strength values of
the member candidates grouped at that genomic start coordinate, the members
being the retained rows passing the start-inclusion predicate (non-histop
rows in start-only mode, where abortive rows count; elongating rows
otherwise). -/
theorem start_strength_sum (cands : List CandRow) (cols : List (List ℚ))
    (counts : List ℚ) (nnlsFn : List (List ℚ) → List ℚ → List ℚ × ℚ)
    (startonly : Bool) (out : RegOutput)
    (h : regressCore cands cols counts nnlsFn startonly = .ok out) :
    ∀ r ∈ out.startRows,
      r.2.1 = ((((fittedPairs cands cols counts nnlsFn).filter (startPred startonly)).filter
          (fun q => decide (q.1.gcoord = r.1))).map Prod.snd).sum := by
  rcases regressCore_ok_elim cands cols counts nnlsFn startonly out h with rfl | ⟨cov, htail⟩
  · intro r hr
    exact absurd hr (List.not_mem_nil r)
  · obtain ⟨_, ⟨covS, hsrows⟩, _⟩ := buildTail_ok_elim _ _ _ _ htail
    intro r hr
    exact buildGroupRows_mem _ _ _ _ hsrows r hr

/-- C6 (witness): the single start record of a one-candidate family sums
that candidate strength. -/
theorem start_strength_sum_wit :
    regressCore [rowB] [[1, 1]] [1, 1] nnlsOne false
      = .ok ⟨[(rowB, 1)], [(5, 1, 2)], [(20, 1, 2)]⟩
    ∧ ∀ r ∈ (⟨[(rowB, 1)], [(5, 1, 2)], [(20, 1, 2)]⟩ : RegOutput).startRows,
        r.2.1 = ((((fittedPairs [rowB] [[1, 1]] [1, 1] nnlsOne).filter
            (startPred false)).filter
            (fun q => decide (q.1.gcoord = r.1))).map Prod.snd).sum := by
  have h : regressCore [rowB] [[1, 1]] [1, 1] nnlsOne false
      = .ok ⟨[(rowB, 1)], [(5, 1, 2)], [(20, 1, 2)]⟩ := by
    norm_num [regressCore, keptColumns, retainedFit, prunedFit, buildFull, buildTail,
      buildGroupRows, npLinalgInv, listDet, listDetF, listInv, dot, gramL, scaleL,
      submatrixL, quadformL, idxWhere, idxWhereAux, exceptMapList, dedupFirst,
      dedupFirstAux, min_str, emptyOutput, startPred, stopPred, dropCol, dropRow,
      pairsOf, fittedPairs, rowB, nnlsOne, List.range_succ, List.range_zero]
  exact ⟨h, start_strength_sum _ _ _ _ _ _ h⟩

/-! ## C10: positivity of transcript coordinates entering the pass -/

/-- C10: the chromosome query admits only rows with tcoord > 0 and
tstop > 0, so the start-count slice lower bound tcoord - 1 is never
negative; and every row of a family result (real, abortive or histop)
keeps tcoord > 0 and tstop > 0, so an ORF starting at the first transcript
nucleotide never appears in any output table. -/
theorem query_positive (rows : List CandRow) (cols : List (List ℚ))
    (counts : List ℚ) (nnlsFn : List (List ℚ) → List ℚ → List ℚ × ℚ)
    (startonly : Bool) (out : RegOutput)
    (h : regressCore (buildCandRows (chromQueryFilter rows) startonly)
        cols counts nnlsFn startonly = .ok out) :
    (∀ r ∈ chromQueryFilter rows, 0 < r.tcoord ∧ 0 < r.tstop ∧ 0 ≤ r.tcoord - 1)
    ∧ (∀ q ∈ out.orfRows, 0 < q.1.tcoord ∧ 0 < q.1.tstop) := by
  have hq : ∀ r ∈ chromQueryFilter rows, 0 < r.tcoord ∧ 0 < r.tstop := by
    intro r hr
    have hf := List.of_mem_filter hr
    simp only [Bool.and_eq_true, decide_eq_true_eq] at hf
    exact ⟨hf.2, hf.1⟩
  refine ⟨fun r hr => ⟨(hq r hr).1, (hq r hr).2, by have := (hq r hr).1; omega⟩, ?_⟩
  intro q hqq
  rcases regressCore_ok_elim _ cols counts nnlsFn startonly out h with rfl | ⟨cov, htail⟩
  · exact absurd hqq (List.not_mem_nil q)
  · obtain ⟨ho, _, _⟩ := buildTail_ok_elim _ _ _ _ htail
    rw [ho] at hqq
    exact buildCandRows_pos _ _ hq q.1 (fittedPairs_row_mem _ _ _ _ q hqq)

/-- C10 (witness): a full run through query, assembly and regression. -/
theorem query_positive_wit :
    regressCore (buildCandRows (chromQueryFilter [rowB]) false)
        [[1, 1], [0, 0], [0, 0]] [1, 1] nnlsOne false
      = .ok ⟨[(rowB, 1)], [(5, 1, 2)], [(20, 1, 2)]⟩
    ∧ (∀ q ∈ (⟨[(rowB, 1)], [(5, 1, 2)], [(20, 1, 2)]⟩ : RegOutput).orfRows,
        0 < q.1.tcoord ∧ 0 < q.1.tstop) := by
  have h : regressCore (buildCandRows (chromQueryFilter [rowB]) false)
        [[1, 1], [0, 0], [0, 0]] [1, 1] nnlsOne false
      = .ok ⟨[(rowB, 1)], [(5, 1, 2)], [(20, 1, 2)]⟩ := by
    norm_num [regressCore, keptColumns, retainedFit, prunedFit, buildFull, buildTail,
      buildGroupRows, npLinalgInv, listDet, listDetF, listInv, dot, gramL, scaleL,
      submatrixL, quadformL, idxWhere, idxWhereAux, exceptMapList, dedupFirst,
      dedupFirstAux, min_str, emptyOutput, startPred, stopPred, dropCol, dropRow,
      pairsOf, fittedPairs, rowB, nnlsOne, List.range_succ, List.range_zero,
      buildCandRows, chromQueryFilter, sortTcoordDesc, insertDesc, dedupBy, dedupByAux]
  exact ⟨h, (query_positive _ _ _ _ _ _ h).2⟩

/-! ## C7: non-negativity of the aggregate weights -/

theorem matInvQ_eq_inv {k : ℕ} (M : Matrix (Fin k) (Fin k) ℚ) : matInvQ M = M⁻¹ := by
  rw [Matrix.inv_def, Ring.inverse_eq_inv]
  rfl

theorem dotProduct_self_nonneg {k : ℕ} (v : Fin k → ℚ) : 0 ≤ v ⬝ᵥ v :=
  Finset.sum_nonneg fun i _ => mul_self_nonneg (v i)

theorem psdq_gram {m k : ℕ} (A : Matrix (Fin m) (Fin k) ℚ) : PSDq (Aᵀ * A) := by
  intro v
  rw [← Matrix.mulVec_mulVec, Matrix.dotProduct_mulVec, Matrix.vecMul_transpose]
  exact dotProduct_self_nonneg (A *ᵥ v)

theorem psdq_smul {k : ℕ} {M : Matrix (Fin k) (Fin k) ℚ} (hM : PSDq M) {c : ℚ}
    (hc : 0 ≤ c) : PSDq (c • M) := by
  intro v
  rw [Matrix.smul_mulVec_assoc, dotProduct_smul, smul_eq_mul]
  exact mul_nonneg hc (hM v)

theorem psdq_submatrix {k g : ℕ} {M : Matrix (Fin k) (Fin k) ℚ} (hM : PSDq M)
    (e : Fin g → Fin k) : PSDq (M.submatrix e e) := by
  have hsel : M.submatrix e e = selMat e * M * (selMat e)ᵀ := by
    ext i j
    simp [selMat, Matrix.mul_apply, Matrix.submatrix_apply, ite_mul, mul_ite,
      Finset.sum_ite_eq, Finset.sum_ite_eq']
  intro v
  rw [hsel, ← Matrix.mulVec_mulVec, ← Matrix.mulVec_mulVec,
    Matrix.dotProduct_mulVec, Matrix.mulVec_transpose]
  exact hM (v ᵥ* selMat e)

theorem psdq_inv_quadform {k : ℕ} {M : Matrix (Fin k) (Fin k) ℚ} (hM : PSDq M)
    (hdet : IsUnit M.det) (x : Fin k → ℚ) : 0 ≤ x ⬝ᵥ M⁻¹ *ᵥ x := by
  have hx : M *ᵥ (M⁻¹ *ᵥ x) = x := by
    rw [Matrix.mulVec_mulVec, Matrix.mul_nonsing_inv M hdet, Matrix.one_mulVec]
  calc (0 : ℚ) ≤ (M⁻¹ *ᵥ x) ⬝ᵥ M *ᵥ (M⁻¹ *ᵥ x) := hM (M⁻¹ *ᵥ x)
    _ = (M *ᵥ (M⁻¹ *ᵥ x)) ⬝ᵥ (M⁻¹ *ᵥ x) := dotProduct_comm _ _
    _ = x ⬝ᵥ M⁻¹ *ᵥ x := by rw [hx]

/-- C7: the aggregate weight of any start or stop coordinate group — the
quadratic form of the member strengths over the inverse of the covariance
submatrix restricted to the member indices — is non-negative whenever that
restricted submatrix is invertible. covmatM is the covariance of the fit
(resid^2 * (A.T A)^-1 / dof) with positive degrees of freedom; the index
map e composes the two restrictions the code applies (the inclusion mask
and the group rownums). -/
theorem group_weight_nonneg {m k g : ℕ} (A : Matrix (Fin m) (Fin k) ℚ)
    (resid dof : ℚ) (hdof : 0 < dof) (e : Fin g → Fin k) (x : Fin g → ℚ)
    (hA : IsUnit (Aᵀ * A).det)
    (hG : IsUnit ((covmatM A resid dof).submatrix e e).det) :
    0 ≤ x ⬝ᵥ (matInvQ ((covmatM A resid dof).submatrix e e)) *ᵥ x := by
  rw [matInvQ_eq_inv]
  have hinv : PSDq (Aᵀ * A)⁻¹ := fun v => psdq_inv_quadform (psdq_gram A) hA v
  have hcov : PSDq (covmatM A resid dof) := by
    unfold covmatM
    rw [matInvQ_eq_inv]
    exact psdq_smul hinv (div_nonneg (mul_self_nonneg resid) (le_of_lt hdof))
  exact psdq_inv_quadform (psdq_submatrix hcov e) hG x

/-- C7 (witness): the identity design matrix with one retained candidate,
unit residual and one degree of freedom. -/
theorem group_weight_nonneg_wit :
    (0 : ℚ) < 1
    ∧ IsUnit ((1 : Matrix (Fin 1) (Fin 1) ℚ)ᵀ * 1).det
    ∧ IsUnit ((covmatM (1 : Matrix (Fin 1) (Fin 1) ℚ) 1 1).submatrix id id).det
    ∧ 0 ≤ (fun _ => (1 : ℚ)) ⬝ᵥ
        (matInvQ ((covmatM (1 : Matrix (Fin 1) (Fin 1) ℚ) 1 1).submatrix id id)) *ᵥ
        (fun _ => (1 : ℚ)) := by
  have h1 : (0 : ℚ) < 1 := by norm_num
  have hA : IsUnit ((1 : Matrix (Fin 1) (Fin 1) ℚ)ᵀ * 1).det := by
    simp
  have hG : IsUnit ((covmatM (1 : Matrix (Fin 1) (Fin 1) ℚ) 1 1).submatrix id id).det := by
    simp [covmatM, matInvQ, Matrix.submatrix_id_id]
  exact ⟨h1, hA, hG, group_weight_nonneg 1 1 1 h1 id (fun _ => 1) hA hG⟩

end ORFRegress
